import Mathlib

/-!
Verification of the diff/patch core of the repository (src/core/src/diff.rs).

Texts are embedded as `List Char`.  The two entry points of the source file,
`diff_files` and `apply_edit`, are embedded below.  `apply_edit` is a direct
translation of the Rust function (substring containment test and
first-occurrence replacement).  The line-diff pipeline that `diff_files`
invokes (the `similar` crate: `TextDiff::from_lines`, `grouped_ops`,
`iter_changes`) is not part of the repository's sources, so those components
are modelled from the specification (line sequencing, minimal-edit alignment
with deterministic tie-breaking, context-window grouping); the rendering loop
of `diff_files` itself follows the source.
-/

/-- Tag of a single line-level change, as in the change stream consumed by
`diff_files` (`ChangeTag` in the source: `Equal`, `Delete`, `Insert`). -/
inductive Tag where
  | equal : Tag
  | delete : Tag
  | insert : Tag
deriving DecidableEq, BEq, Repr

/-- One change of the alignment: a tag together with the line it covers
(the line keeps its terminator). -/
structure Change where
  tag : Tag
  value : List Char
deriving DecidableEq, Repr

/-- Error raised by `apply_edit` in the source: a Python `ValueError`
carrying a message. -/
inductive PyErr where
  | valueError : List Char → PyErr
deriving DecidableEq, Repr

/-- The exact message raised by the source when the target text is absent. -/
def notFoundMsg : List Char := "Could not find content to replace".toList

/-- Substring containment, embedding Rust's `str::contains` for string
patterns: `pat` occurs contiguously somewhere in `content` (the empty
pattern occurs in every text). -/
def containsSub (content pat : List Char) : Bool :=
  match content with
  | [] => pat.isEmpty
  | _ :: rest => pat.isPrefixOf content || containsSub rest pat

/-- First-occurrence replacement, embedding Rust's
`str::replacen(pat, rep, 1)`: the leftmost occurrence of `pat` is replaced
by `rep`; if `pat` does not occur the text is returned unchanged. -/
def replaceFirst (content pat rep : List Char) : List Char :=
  match content with
  | [] => if pat.isEmpty then rep else []
  | c :: rest =>
    if pat.isPrefixOf (c :: rest) then rep ++ (c :: rest).drop pat.length
    else c :: replaceFirst rest pat rep

/-- Byte offset of the first occurrence of `pat` in `content`, when any. -/
def firstOcc (content pat : List Char) : Option Nat :=
  match content with
  | [] => if pat.isEmpty then some 0 else none
  | _ :: rest =>
    if pat.isPrefixOf content then some 0
    else (firstOcc rest pat).map (· + 1)

/-- Embedding of `apply_edit` from src/core/src/diff.rs: fail when
`old_content` is absent from `content`, otherwise replace its first
occurrence by `new_content`. -/
def apply_edit (content old_content new_content : List Char) :
    Except PyErr (List Char) :=
  if containsSub content old_content then
    Except.ok (replaceFirst content old_content new_content)
  else
    Except.error (PyErr.valueError notFoundMsg)

/-- Whether an `apply_edit` result is a success. -/
def isOkE (r : Except PyErr (List Char)) : Bool :=
  match r with
  | Except.ok _ => true
  | Except.error _ => false

lemma containsSub_nil_pat (content : List Char) :
    containsSub content [] = true := by
  cases content with
  | nil => rfl
  | cons c rest => simp [containsSub, List.isPrefixOf]

lemma replaceFirst_nil_pat (content rep : List Char) :
    replaceFirst content [] rep = rep ++ content := by
  cases content with
  | nil => simp [replaceFirst]
  | cons c rest => simp [replaceFirst, List.isPrefixOf]

lemma containsSub_iff_firstOcc (content pat : List Char) :
    containsSub content pat = true ↔ ∃ i, firstOcc content pat = some i := by
  induction content with
  | nil =>
    by_cases h : pat.isEmpty <;> simp [containsSub, firstOcc, h]
  | cons c rest ih =>
    by_cases h : pat.isPrefixOf (c :: rest)
    · simp [containsSub, firstOcc, h]
    · simp only [containsSub, firstOcc, h, Bool.false_or, if_neg, ih]
      constructor
      · rintro ⟨i, hi⟩
        exact ⟨i + 1, by simp [hi]⟩
      · rintro ⟨i, hi⟩
        rcases Option.map_eq_some'.mp hi with ⟨j, hj, _⟩
        exact ⟨j, hj⟩

lemma firstOcc_spec (content pat rep : List Char) (i : Nat)
    (h : firstOcc content pat = some i) :
    replaceFirst content pat rep
        = content.take i ++ rep ++ content.drop (i + pat.length)
      ∧ pat.isPrefixOf (content.drop i) = true
      ∧ (∀ j, j < i → pat.isPrefixOf (content.drop j) = false)
      ∧ i + pat.length ≤ content.length := by
  induction content generalizing i with
  | nil =>
    by_cases hp : pat.isEmpty
    · have hpat : pat = [] := by simpa [List.isEmpty_iff] using hp
      have hi : 0 = i := by simpa [firstOcc, hp] using h
      subst hpat; subst hi
      simp [replaceFirst, List.isPrefixOf]
    · simp [firstOcc, hp] at h
  | cons c rest ih =>
    by_cases hp : pat.isPrefixOf (c :: rest)
    · have hi : 0 = i := by simpa [firstOcc, hp] using h
      subst hi
      have hpre : pat <+: (c :: rest) := List.isPrefixOf_iff_prefix.mp hp
      refine ⟨by simp [replaceFirst, hp], by simpa using hp, ?_, ?_⟩
      · intro j hj; omega
      · simpa using hpre.length_le
    · rw [firstOcc] at h
      simp only [hp, if_neg, Bool.false_eq_true, if_false, Option.map_eq_some'] at h
      rcases h with ⟨i', hi', rfl⟩
      obtain ⟨h1, h2, h3, h4⟩ := ih i' hi'
      refine ⟨?_, ?_, ?_, ?_⟩
      · have : i' + 1 + pat.length = (i' + pat.length) + 1 := by omega
        simp [replaceFirst, hp, h1, this, List.take_succ_cons, List.drop_succ_cons]
      · simpa [List.drop_succ_cons] using h2
      · intro j hj
        cases j with
        | zero => simp only [List.drop_zero]; exact Bool.eq_false_iff.mpr hp
        | succ j' =>
          have : j' < i' := by omega
          simpa [List.drop_succ_cons] using h3 j' this
      · simp only [List.length_cons]; omega

/-- C1: whenever `content` contains `t` as a substring, `apply_edit` succeeds
and returns `content` with exactly the first occurrence of `t` (by offset)
replaced by `r`, leaving everything before and after it (including later
occurrences of `t`) unchanged, and the result's length is
`content.length - t.length + r.length`. -/
theorem apply_edit_first_occurrence (content t r : List Char)
    (h : containsSub content t = true) :
    ∃ i, firstOcc content t = some i
      ∧ apply_edit content t r
          = Except.ok (content.take i ++ r ++ content.drop (i + t.length))
      ∧ t.isPrefixOf (content.drop i) = true
      ∧ (∀ j, j < i → t.isPrefixOf (content.drop j) = false)
      ∧ (content.take i ++ r ++ content.drop (i + t.length)).length
          = content.length - t.length + r.length := by
  obtain ⟨i, hi⟩ := (containsSub_iff_firstOcc content t).mp h
  obtain ⟨h1, h2, h3, h4⟩ := firstOcc_spec content t r i hi
  have hitake : i ≤ content.length := by omega
  refine ⟨i, hi, ?_, h2, h3, ?_⟩
  · simp [apply_edit, h, h1]
  · simp only [List.length_append, List.length_take, List.length_drop]
    omega

/-- C1 witness: the spec's own example `apply_edit("foo bar foo","foo","baz")`
replaces only the first `foo`. -/
theorem apply_edit_first_occurrence_witness :
    containsSub "foo bar foo".toList "foo".toList = true
      ∧ ∃ i, firstOcc "foo bar foo".toList "foo".toList = some i
          ∧ apply_edit "foo bar foo".toList "foo".toList "baz".toList
              = Except.ok ("foo bar foo".toList.take i ++ "baz".toList
                  ++ "foo bar foo".toList.drop (i + "foo".toList.length))
          ∧ "foo".toList.isPrefixOf ("foo bar foo".toList.drop i) = true
          ∧ (∀ j, j < i →
              "foo".toList.isPrefixOf ("foo bar foo".toList.drop j) = false)
          ∧ ("foo bar foo".toList.take i ++ "baz".toList
              ++ "foo bar foo".toList.drop (i + "foo".toList.length)).length
              = "foo bar foo".toList.length - "foo".toList.length
                  + "baz".toList.length :=
  ⟨by decide,
   apply_edit_first_occurrence "foo bar foo".toList "foo".toList "baz".toList
     (by decide)⟩

/-- C4 counterexample: at `content = "a"`, `old = "b"` the function does fail,
but the message it carries is `"Could not find content to replace"` (capital
`C`), not the claimed `"could not find content to replace"`. -/
theorem apply_edit_message_counterexample :
    containsSub "a".toList "b".toList = false
      ∧ apply_edit "a".toList "b".toList "x".toList
          = Except.error (PyErr.valueError "Could not find content to replace".toList)
      ∧ apply_edit "a".toList "b".toList "x".toList
          ≠ Except.error (PyErr.valueError "could not find content to replace".toList) := by
  refine ⟨by decide, rfl, ?_⟩
  intro hc
  have h0 : (Except.error
        (PyErr.valueError "Could not find content to replace".toList)
        : Except PyErr (List Char))
      = Except.error
        (PyErr.valueError "could not find content to replace".toList) :=
    (rfl : apply_edit "a".toList "b".toList "x".toList = _).symm.trans hc
  simp only [Except.error.injEq, PyErr.valueError.injEq] at h0
  exact absurd h0 (by decide)

/-- C4 (amended): `apply_edit` returns an error if and only if `content` does
not contain `old_content`; the error is the single error kind of the core
with message `"Could not find content to replace"`, and on failure no result
text is produced. -/
theorem apply_edit_error_iff (content o r : List Char) :
    (apply_edit content o r
        = Except.error (PyErr.valueError notFoundMsg)
      ↔ containsSub content o = false)
    ∧ isOkE (apply_edit content o r) = containsSub content o := by
  by_cases h : containsSub content o = true
  · simp [apply_edit, h, isOkE]
  · have h' : containsSub content o = false := Bool.eq_false_iff.mpr h
    simp [apply_edit, h', isOkE]

/-- C9: with an empty `old_content` the containment test always succeeds (the
empty text is a prefix of every text, matched at offset 0), so `apply_edit`
never fails and prepends `new_content` to `content`. -/
theorem apply_edit_empty_old (content r : List Char) :
    apply_edit content [] r = Except.ok (r ++ content) := by
  simp [apply_edit, containsSub_nil_pat, replaceFirst_nil_pat]

/-- Modelled from the spec: the Line Sequencer of the `similar` crate's
`TextDiff::from_lines` (missing from src/).  Splits a text into lines, each
retaining its terminator; the final line may be unterminated; concatenating
the lines restores the text. -/
def splitLines (s : List Char) : List (List Char) :=
  match s with
  | [] => []
  | c :: rest =>
    if c = '\n' then [c] :: splitLines rest
    else
      match splitLines rest with
      | [] => [[c]]
      | l :: ls => (c :: l) :: ls

/-- Modelled from the spec: length of a longest common subsequence of two
line sequences, the quantity a minimal-edit alignment preserves.  The first
argument is recursion fuel; callers pass at least the summed lengths. -/
def lcsLen (fuel : Nat) (A B : List (List Char)) : Nat :=
  match fuel, A, B with
  | _, [], _ => 0
  | _, _, [] => 0
  | 0, _ :: _, _ :: _ => 0
  | f + 1, x :: xs, y :: ys =>
    if x = y then lcsLen f xs ys + 1
    else max (lcsLen f xs (y :: ys)) (lcsLen f (x :: xs) ys)

/-- Modelled from the spec: the Alignment Engine of the `similar` crate
(missing from src/).  Produces a minimal-edit change sequence between two
line sequences, with deterministic tie-breaking (earliest lines aligned
first, deletions preferred on ties).  The first argument is recursion fuel;
callers pass at least the summed lengths. -/
def lcsDiff (fuel : Nat) (A B : List (List Char)) : List Change :=
  match fuel, A, B with
  | _, [], ys => ys.map (fun y => { tag := Tag.insert, value := y })
  | _, x :: xs, [] => (x :: xs).map (fun z => { tag := Tag.delete, value := z })
  | 0, _ :: _, _ :: _ => []
  | f + 1, x :: xs, y :: ys =>
    if x = y then { tag := Tag.equal, value := x } :: lcsDiff f xs ys
    else if lcsLen f (x :: xs) ys ≤ lcsLen f xs (y :: ys) then
      { tag := Tag.delete, value := x } :: lcsDiff f xs (y :: ys)
    else
      { tag := Tag.insert, value := y } :: lcsDiff f (x :: xs) ys

/-- Modelled from the spec: the full line alignment of two texts, as
performed by `TextDiff::from_lines` (missing from src/). -/
def align (old new : List Char) : List Change :=
  lcsDiff ((splitLines old).length + (splitLines new).length)
    (splitLines old) (splitLines new)

/-- A change is part of a changed run when its tag is not `Equal`. -/
def isChanged (c : Change) : Bool := c.tag != Tag.equal

/-- Positions (counting from `k`) of the non-`Equal` changes of a change
sequence. -/
def changedIdxFrom (k : Nat) (cs : List Change) : List Nat :=
  match cs with
  | [] => []
  | c :: rest =>
    if isChanged c then k :: changedIdxFrom (k + 1) rest
    else changedIdxFrom (k + 1) rest

/-- Positions of the non-`Equal` changes of a change sequence. -/
def changedIdx (cs : List Change) : List Nat := changedIdxFrom 0 cs

/-- Modelled from the spec: the context window of the Hunk Grouper around a
changed position — up to `C` `Equal` lines on each side, clipped at the
sequence ends (`n` is the sequence length). -/
def ctxInterval (n C i : Nat) : Nat × Nat := (i - C, min (i + C + 1) n)

/-- Modelled from the spec: merge context windows that overlap or touch,
scanning left to right.  `cur` is the window being grown. -/
def mergeAux (cur : Nat × Nat) (rest : List (Nat × Nat)) : List (Nat × Nat) :=
  match rest with
  | [] => [cur]
  | iv :: rest' =>
    if iv.1 ≤ cur.2 then mergeAux (cur.1, max cur.2 iv.2) rest'
    else cur :: mergeAux iv rest'

/-- Modelled from the spec: merge a sorted list of context windows. -/
def mergeIntervals (ivs : List (Nat × Nat)) : List (Nat × Nat) :=
  match ivs with
  | [] => []
  | iv :: rest => mergeAux iv rest

/-- Modelled from the spec: the index ranges of the display Groups for a
change sequence under context size `C` (the Hunk Grouper of the `similar`
crate's `grouped_ops`, missing from src/). -/
def groupIntervals (C : Nat) (cs : List Change) : List (Nat × Nat) :=
  mergeIntervals ((changedIdx cs).map (ctxInterval cs.length C))

/-- Modelled from the spec: the display Groups themselves — the slices of
the change sequence covered by the group index ranges. -/
def groupedOps (C : Nat) (cs : List Change) : List (List Change) :=
  (groupIntervals C cs).map (fun iv => (cs.drop iv.1).take (iv.2 - iv.1))

/-- The one-character sign of a change, as matched in `diff_files`. -/
def signChar (t : Tag) : Char :=
  match t with
  | Tag.delete => '-'
  | Tag.insert => '+'
  | Tag.equal => ' '

/-- A rendered change: its sign immediately followed by its line's exact
content (terminator included), as pushed by `diff_files`. -/
def renderChange (c : Change) : List Char := signChar c.tag :: c.value

/-- A rendered Group: its changes rendered in order. -/
def renderGroup (g : List Change) : List Char := (g.map renderChange).join

/-- The separator emitted between Groups: a literal `...` line with its
terminator. -/
def sepChars : List Char := ['.', '.', '.', '\n']

/-- Concatenate rendered Groups, emitting the separator before every group
except the first, exactly as the `idx > 0` test of `diff_files` does. -/
def joinGroups (rs : List (List Char)) : List Char :=
  match rs with
  | [] => []
  | r :: rest => r ++ (rest.map (fun h => sepChars ++ h)).join

/-- Embedding of `diff_files` from src/core/src/diff.rs: align the two texts
by lines, group the changes with context 3, and render each group's changes
with their signs, separated by `...` lines.  The filename argument is unused,
as in the source (`_filename`). -/
def diff_files (old new _filename : List Char) : List Char :=
  joinGroups ((groupedOps 3 (align old new)).map renderGroup)

/-- A line ends with the terminator character. -/
def endsNewline (l : List Char) : Prop := l.getLast? = some '\n'

/-- Every line of a line sequence is terminated, except possibly the last. -/
def okLines (L : List (List Char)) : Prop := ∀ l ∈ L.dropLast, endsNewline l

@[simp] lemma splitLines_nil : splitLines [] = [] := rfl

lemma splitLines_cons_newline (rest : List Char) :
    splitLines ('\n' :: rest) = ['\n'] :: splitLines rest := by
  simp [splitLines]

lemma splitLines_cons_other {c : Char} (hc : ¬ c = '\n') (rest : List Char) :
    splitLines (c :: rest)
      = match splitLines rest with
        | [] => [[c]]
        | l :: ls => (c :: l) :: ls := by
  rw [splitLines]
  simp [hc]

lemma splitLines_ne_nil {s : List Char} (h : s ≠ []) : splitLines s ≠ [] := by
  cases s with
  | nil => exact absurd rfl h
  | cons c rest =>
    by_cases hc : c = '\n'
    · subst hc; simp [splitLines_cons_newline]
    · rw [splitLines_cons_other hc]
      rcases hsr : splitLines rest with _ | ⟨l, ls⟩ <;> simp

lemma join_splitLines (s : List Char) : (splitLines s).join = s := by
  induction s with
  | nil => rfl
  | cons c rest ih =>
    by_cases hc : c = '\n'
    · subst hc; simp [splitLines_cons_newline, ih]
    · rw [splitLines_cons_other hc]
      rcases hsr : splitLines rest with _ | ⟨l, ls⟩
      · rw [hsr] at ih; simp only [List.join] at ih
        simp [← ih]
      · rw [hsr] at ih
        simp only [List.join_cons] at ih ⊢
        simp [ih]

lemma splitLines_mem_ne_nil {s l : List Char} (h : l ∈ splitLines s) :
    l ≠ [] := by
  induction s generalizing l with
  | nil => simp [splitLines] at h
  | cons c rest ih =>
    by_cases hc : c = '\n'
    · subst hc; rw [splitLines_cons_newline] at h
      rcases List.mem_cons.mp h with h | h
      · subst h; simp
      · exact ih h
    · rw [splitLines_cons_other hc] at h
      rcases hsr : splitLines rest with _ | ⟨l0, ls⟩
      · rw [hsr] at h; simp only [List.mem_singleton] at h
        subst h; simp
      · rw [hsr] at h
        rcases List.mem_cons.mp h with h | h
        · subst h; simp
        · exact ih (hsr ▸ List.mem_cons_of_mem l0 h)

lemma splitLines_no_inner_newline {s l : List Char} (h : l ∈ splitLines s) :
    '\n' ∉ l.dropLast := by
  induction s generalizing l with
  | nil => simp [splitLines] at h
  | cons c rest ih =>
    by_cases hc : c = '\n'
    · subst hc; rw [splitLines_cons_newline] at h
      rcases List.mem_cons.mp h with h | h
      · subst h; simp
      · exact ih h
    · rw [splitLines_cons_other hc] at h
      rcases hsr : splitLines rest with _ | ⟨l0, ls⟩
      · rw [hsr] at h; simp only [List.mem_singleton] at h
        subst h; simp
      · rw [hsr] at h
        rcases List.mem_cons.mp h with h | h
        · subst h
          have hl0 : l0 ≠ [] := splitLines_mem_ne_nil (hsr ▸ List.mem_cons_self l0 ls)
          rw [List.dropLast_cons_of_ne_nil hl0]
          intro hmem
          rcases List.mem_cons.mp hmem with h' | h'
          · exact hc h'.symm
          · exact ih (hsr ▸ List.mem_cons_self l0 ls) h'
        · exact ih (hsr ▸ List.mem_cons_of_mem l0 h)

lemma splitLines_okLines (s : List Char) : okLines (splitLines s) := by
  induction s with
  | nil => intro l hl; simp [splitLines] at hl
  | cons c rest ih =>
    by_cases hc : c = '\n'
    · subst hc; rw [splitLines_cons_newline]
      rcases hsr : splitLines rest with _ | ⟨l0, ls⟩
      · intro l hl; simp at hl
      · intro l hl
        rw [List.dropLast_cons_of_ne_nil (by simp)] at hl
        rcases List.mem_cons.mp hl with h | h
        · subst h; rfl
        · exact ih l (hsr ▸ h)
    · rw [splitLines_cons_other hc]
      rcases hsr : splitLines rest with _ | ⟨l0, ls⟩
      · intro l hl; simp at hl
      · rcases hls : ls with _ | ⟨m, ms⟩
        · intro l hl; simp at hl
        · intro l hl
          rw [List.dropLast_cons_of_ne_nil (by simp [hls])] at hl
          rcases List.mem_cons.mp hl with h | h
          · subst h
            have hl0 : l0 ≠ [] := splitLines_mem_ne_nil (hsr ▸ List.mem_cons_self l0 ls)
            have h0 : endsNewline l0 := by
              apply ih l0
              rw [hsr, hls, List.dropLast_cons_of_ne_nil (by simp)]
              exact List.mem_cons_self l0 _
            rcases l0 with _ | ⟨d, ds⟩
            · exact absurd rfl hl0
            · unfold endsNewline at h0 ⊢
              rwa [List.getLast?_cons_cons]
          · apply ih l
            rw [hsr, hls, List.dropLast_cons_of_ne_nil (by simp)]
            exact List.mem_cons_of_mem l0 (hls ▸ h)

lemma splitLines_append_of_endsNewline {a : List Char} (b : List Char)
    (h : a = [] ∨ endsNewline a) :
    splitLines (a ++ b) = splitLines a ++ splitLines b := by
  induction a with
  | nil => simp
  | cons c a' ih =>
    rcases h with h | h
    · exact absurd h (by simp)
    · by_cases hc : c = '\n'
      · subst hc
        rcases ha' : a' with _ | ⟨d, ds⟩
        · simp [splitLines_cons_newline]
        · rw [← ha']
          have h' : a' = [] ∨ endsNewline a' := by
            right
            unfold endsNewline at h ⊢
            rw [ha'] at h ⊢
            rwa [List.getLast?_cons_cons] at h
          simp only [List.cons_append, splitLines_cons_newline, ih h']
      · have ha' : a' ≠ [] := by
          rintro rfl
          unfold endsNewline at h
          simp at h
          exact hc h
        have h' : a' = [] ∨ endsNewline a' := by
          right
          rcases a' with _ | ⟨d, ds⟩
          · exact absurd rfl ha'
          · unfold endsNewline at h ⊢
            rwa [List.getLast?_cons_cons] at h
        rw [List.cons_append, splitLines_cons_other hc, splitLines_cons_other hc,
          ih h']
        have hne : splitLines a' ≠ [] := splitLines_ne_nil ha'
        rcases hsa : splitLines a' with _ | ⟨l, ls⟩
        · exact absurd hsa hne
        · simp

lemma splitLines_append_of_no_newline {a : List Char} (b : List Char)
    (ha : a ≠ []) (h : '\n' ∉ a) :
    splitLines (a ++ b)
      = (a ++ (splitLines b).headD []) :: (splitLines b).tail := by
  induction a with
  | nil => exact absurd rfl ha
  | cons c a' ih =>
    have hc : ¬ c = '\n' := by
      intro hcc; exact h (hcc ▸ List.mem_cons_self c a')
    rcases ha' : a' with _ | ⟨d, ds⟩
    · rw [List.cons_append, List.nil_append, splitLines_cons_other hc]
      rcases hsb : splitLines b with _ | ⟨l, ls⟩ <;> simp [hsb]
    · rw [← ha']
      have ha'ne : a' ≠ [] := by simp [ha']
      have h' : '\n' ∉ a' := fun hm => h (List.mem_cons_of_mem c hm)
      rw [List.cons_append, splitLines_cons_other hc, ih ha'ne h']
      simp

lemma splitLines_single_line {w : List Char} (b : List Char)
    (h : '\n' ∉ w) :
    splitLines ((w ++ ['\n']) ++ b) = (w ++ ['\n']) :: splitLines b := by
  have : endsNewline (w ++ ['\n']) := by
    unfold endsNewline; rw [List.getLast?_concat]
  rw [splitLines_append_of_endsNewline b (Or.inr this)]
  rcases hw : w with _ | ⟨d, ds⟩
  · simp [splitLines_cons_newline]
  · rw [← hw]
    have hwne : w ≠ [] := by simp [hw]
    rw [splitLines_append_of_no_newline ['\n'] hwne h]
    simp [splitLines_cons_newline]

/-- The lines of the old text as seen by a change sequence: the values of
the `Equal` and `Delete` changes, in order. -/
def oldLinesOf (cs : List Change) : List (List Char) :=
  (cs.filter (fun c => c.tag != Tag.insert)).map Change.value

/-- The lines of the new text as seen by a change sequence: the values of
the `Equal` and `Insert` changes, in order. -/
def newLinesOf (cs : List Change) : List (List Char) :=
  (cs.filter (fun c => c.tag != Tag.delete)).map Change.value

/-- Replay of the old text from a change sequence. -/
def oldTextOf (cs : List Change) : List Char := (oldLinesOf cs).join

/-- Replay of the new text from a change sequence. -/
def newTextOf (cs : List Change) : List Char := (newLinesOf cs).join

lemma lcsDiff_nil_left (fuel : Nat) (B : List (List Char)) :
    lcsDiff fuel [] B = B.map (fun y => { tag := Tag.insert, value := y }) := by
  cases fuel <;> cases B <;> rfl

lemma lcsDiff_nil_right (fuel : Nat) (A : List (List Char)) :
    lcsDiff fuel A [] = A.map (fun z => { tag := Tag.delete, value := z }) := by
  cases fuel <;> cases A <;> rfl

lemma lcsDiff_cons_cons (f : Nat) (x y : List Char)
    (xs ys : List (List Char)) :
    lcsDiff (f + 1) (x :: xs) (y :: ys)
      = if x = y then
          { tag := Tag.equal, value := x } :: lcsDiff f xs ys
        else if lcsLen f (x :: xs) ys ≤ lcsLen f xs (y :: ys) then
          { tag := Tag.delete, value := x } :: lcsDiff f xs (y :: ys)
        else
          { tag := Tag.insert, value := y } :: lcsDiff f (x :: xs) ys := rfl

@[simp] lemma oldLinesOf_nil : oldLinesOf [] = [] := rfl

@[simp] lemma newLinesOf_nil : newLinesOf [] = [] := rfl

@[simp] lemma oldLinesOf_cons_equal (v : List Char) (cs : List Change) :
    oldLinesOf ({ tag := Tag.equal, value := v } :: cs) = v :: oldLinesOf cs := rfl

@[simp] lemma oldLinesOf_cons_delete (v : List Char) (cs : List Change) :
    oldLinesOf ({ tag := Tag.delete, value := v } :: cs) = v :: oldLinesOf cs := rfl

@[simp] lemma oldLinesOf_cons_insert (v : List Char) (cs : List Change) :
    oldLinesOf ({ tag := Tag.insert, value := v } :: cs) = oldLinesOf cs := rfl

@[simp] lemma newLinesOf_cons_equal (v : List Char) (cs : List Change) :
    newLinesOf ({ tag := Tag.equal, value := v } :: cs) = v :: newLinesOf cs := rfl

@[simp] lemma newLinesOf_cons_delete (v : List Char) (cs : List Change) :
    newLinesOf ({ tag := Tag.delete, value := v } :: cs) = newLinesOf cs := rfl

@[simp] lemma newLinesOf_cons_insert (v : List Char) (cs : List Change) :
    newLinesOf ({ tag := Tag.insert, value := v } :: cs) = v :: newLinesOf cs := rfl

lemma oldLinesOf_map_insert (B : List (List Char)) :
    oldLinesOf (B.map (fun y => { tag := Tag.insert, value := y })) = [] := by
  induction B with
  | nil => rfl
  | cons y ys ih => simpa using ih

lemma newLinesOf_map_insert (B : List (List Char)) :
    newLinesOf (B.map (fun y => { tag := Tag.insert, value := y })) = B := by
  induction B with
  | nil => rfl
  | cons y ys ih => simpa using ih

lemma oldLinesOf_map_delete (A : List (List Char)) :
    oldLinesOf (A.map (fun z => { tag := Tag.delete, value := z })) = A := by
  induction A with
  | nil => rfl
  | cons x xs ih => simpa using ih

lemma newLinesOf_map_delete (A : List (List Char)) :
    newLinesOf (A.map (fun z => { tag := Tag.delete, value := z })) = [] := by
  induction A with
  | nil => rfl
  | cons x xs ih => simpa using ih

lemma lcsDiff_oldLines (fuel : Nat) :
    ∀ A B : List (List Char), A.length + B.length ≤ fuel →
      oldLinesOf (lcsDiff fuel A B) = A := by
  induction fuel with
  | zero =>
    intro A B h
    have hA : A = [] := by
      cases A with
      | nil => rfl
      | cons a as => simp at h
    subst hA
    rw [lcsDiff_nil_left, oldLinesOf_map_insert]
  | succ f ih =>
    intro A B h
    cases A with
    | nil => rw [lcsDiff_nil_left, oldLinesOf_map_insert]
    | cons x xs =>
      cases B with
      | nil => rw [lcsDiff_nil_right, oldLinesOf_map_delete]
      | cons y ys =>
        rw [lcsDiff_cons_cons]
        by_cases hxy : x = y
        · simp only [hxy, if_pos, oldLinesOf_cons_equal]
          rw [ih xs ys (by simp at h; omega)]
        · rw [if_neg hxy]
          by_cases hlen : lcsLen f (x :: xs) ys ≤ lcsLen f xs (y :: ys)
          · rw [if_pos hlen, oldLinesOf_cons_delete,
              ih xs (y :: ys) (by simp at h ⊢; omega)]
          · rw [if_neg hlen, oldLinesOf_cons_insert,
              ih (x :: xs) ys (by simp at h ⊢; omega)]

lemma lcsDiff_newLines (fuel : Nat) :
    ∀ A B : List (List Char), A.length + B.length ≤ fuel →
      newLinesOf (lcsDiff fuel A B) = B := by
  induction fuel with
  | zero =>
    intro A B h
    have hA : A = [] := by
      cases A with
      | nil => rfl
      | cons a as => simp at h
    subst hA
    rw [lcsDiff_nil_left, newLinesOf_map_insert]
  | succ f ih =>
    intro A B h
    cases A with
    | nil => rw [lcsDiff_nil_left, newLinesOf_map_insert]
    | cons x xs =>
      cases B with
      | nil => rw [lcsDiff_nil_right, newLinesOf_map_delete]
      | cons y ys =>
        rw [lcsDiff_cons_cons]
        by_cases hxy : x = y
        · simp only [hxy, if_pos, newLinesOf_cons_equal]
          rw [ih xs ys (by simp at h; omega)]
        · rw [if_neg hxy]
          by_cases hlen : lcsLen f (x :: xs) ys ≤ lcsLen f xs (y :: ys)
          · rw [if_pos hlen, newLinesOf_cons_delete,
              ih xs (y :: ys) (by simp at h ⊢; omega)]
          · rw [if_neg hlen, newLinesOf_cons_insert,
              ih (x :: xs) ys (by simp at h ⊢; omega)]

lemma okLines_tail {x : List Char} {xs : List (List Char)}
    (h : okLines (x :: xs)) : okLines xs := by
  cases xs with
  | nil => intro l hl; simp at hl
  | cons m ms =>
    intro l hl
    apply h l
    rw [List.dropLast_cons_of_ne_nil (by simp)]
    exact List.mem_cons_of_mem x hl

lemma okLines_head {x : List Char} {xs : List (List Char)}
    (h : okLines (x :: xs)) (hne : xs ≠ []) : endsNewline x := by
  apply h x
  rw [List.dropLast_cons_of_ne_nil hne]
  exact List.mem_cons_self x _

lemma lcsDiff_self (fuel : Nat) :
    ∀ A : List (List Char), A.length + A.length ≤ fuel →
      lcsDiff fuel A A = A.map (fun l => { tag := Tag.equal, value := l }) := by
  induction fuel with
  | zero =>
    intro A h
    have hA : A = [] := by
      cases A with
      | nil => rfl
      | cons a as => simp at h
    subst hA; rfl
  | succ f ih =>
    intro A h
    cases A with
    | nil => rfl
    | cons x xs =>
      rw [lcsDiff_cons_cons, if_pos rfl, ih xs (by simp at h; omega)]
      rfl

lemma lcsDiff_value_mem (fuel : Nat) :
    ∀ (A B : List (List Char)) (c : Change), c ∈ lcsDiff fuel A B →
      (c.tag = Tag.equal → c.value ∈ A ∧ c.value ∈ B)
      ∧ (c.tag = Tag.delete → c.value ∈ A)
      ∧ (c.tag = Tag.insert → c.value ∈ B) := by
  induction fuel with
  | zero =>
    intro A B c hc
    cases A with
    | nil =>
      rw [lcsDiff_nil_left] at hc
      rcases List.mem_map.mp hc with ⟨y, hy, rfl⟩
      exact ⟨fun h => by simp at h, fun h => by simp at h, fun _ => hy⟩
    | cons x xs =>
      cases B with
      | nil =>
        rw [lcsDiff_nil_right] at hc
        rcases List.mem_map.mp hc with ⟨z, hz, rfl⟩
        exact ⟨fun h => by simp at h, fun _ => hz, fun h => by simp at h⟩
      | cons y ys => simp [lcsDiff] at hc
  | succ f ih =>
    intro A B c hc
    cases A with
    | nil =>
      rw [lcsDiff_nil_left] at hc
      rcases List.mem_map.mp hc with ⟨y, hy, rfl⟩
      exact ⟨fun h => by simp at h, fun h => by simp at h, fun _ => hy⟩
    | cons x xs =>
      cases B with
      | nil =>
        rw [lcsDiff_nil_right] at hc
        rcases List.mem_map.mp hc with ⟨z, hz, rfl⟩
        exact ⟨fun h => by simp at h, fun _ => hz, fun h => by simp at h⟩
      | cons y ys =>
        rw [lcsDiff_cons_cons] at hc
        by_cases hxy : x = y
        · rw [if_pos hxy] at hc
          rcases List.mem_cons.mp hc with h | h
          · subst h
            exact ⟨fun _ => ⟨List.mem_cons_self x xs, hxy ▸ List.mem_cons_self y ys⟩,
              fun h => by simp at h, fun h => by simp at h⟩
          · obtain ⟨h1, h2, h3⟩ := ih xs ys c h
            refine ⟨fun ht => ?_, fun ht => ?_, fun ht => ?_⟩
            · exact ⟨List.mem_cons_of_mem x (h1 ht).1,
                List.mem_cons_of_mem y (h1 ht).2⟩
            · exact List.mem_cons_of_mem x (h2 ht)
            · exact List.mem_cons_of_mem y (h3 ht)
        · rw [if_neg hxy] at hc
          by_cases hlen : lcsLen f (x :: xs) ys ≤ lcsLen f xs (y :: ys)
          · rw [if_pos hlen] at hc
            rcases List.mem_cons.mp hc with h | h
            · subst h
              exact ⟨fun h => by simp at h, fun _ => List.mem_cons_self x xs,
                fun h => by simp at h⟩
            · obtain ⟨h1, h2, h3⟩ := ih xs (y :: ys) c h
              refine ⟨fun ht => ?_, fun ht => ?_, fun ht => ?_⟩
              · exact ⟨List.mem_cons_of_mem x (h1 ht).1, (h1 ht).2⟩
              · exact List.mem_cons_of_mem x (h2 ht)
              · exact h3 ht
          · rw [if_neg hlen] at hc
            rcases List.mem_cons.mp hc with h | h
            · subst h
              exact ⟨fun h => by simp at h, fun h => by simp at h,
                fun _ => List.mem_cons_self y ys⟩
            · obtain ⟨h1, h2, h3⟩ := ih (x :: xs) ys c h
              refine ⟨fun ht => ?_, fun ht => ?_, fun ht => ?_⟩
              · exact ⟨(h1 ht).1, List.mem_cons_of_mem y (h1 ht).2⟩
              · exact h2 ht
              · exact List.mem_cons_of_mem y (h3 ht)

lemma lcsDiff_before_equal (fuel : Nat) :
    ∀ (A B : List (List Char)), okLines A → okLines B →
      ∀ l1 l2 : List Change, lcsDiff fuel A B = l1 ++ l2 →
        (∃ d ∈ l2, d.tag = Tag.equal) →
        ∀ c ∈ l1, endsNewline c.value := by
  induction fuel with
  | zero =>
    intro A B _ _ l1 l2 heq ⟨d, hd, hdt⟩ c hc
    exfalso
    cases A with
    | nil =>
      rw [lcsDiff_nil_left] at heq
      have : d ∈ List.map (fun y => { tag := Tag.insert, value := y }) B := by
        rw [heq]; exact List.mem_append_right l1 hd
      rcases List.mem_map.mp this with ⟨y, _, rfl⟩
      simp at hdt
    | cons x xs =>
      cases B with
      | nil =>
        rw [lcsDiff_nil_right] at heq
        have : d ∈ List.map (fun z => { tag := Tag.delete, value := z }) (x :: xs) := by
          rw [heq]; exact List.mem_append_right l1 hd
        rcases List.mem_map.mp this with ⟨z, _, rfl⟩
        simp at hdt
      | cons y ys =>
        have heq' : ([] : List Change) = l1 ++ l2 := heq
        rcases (List.append_eq_nil.mp heq'.symm) with ⟨rfl, rfl⟩
        simp at hd
  | succ f ih =>
    intro A B hA hB l1 l2 heq hd2 c hc
    cases A with
    | nil =>
      exfalso
      obtain ⟨d, hd, hdt⟩ := hd2
      rw [lcsDiff_nil_left] at heq
      have : d ∈ List.map (fun y => { tag := Tag.insert, value := y }) B := by
        rw [heq]; exact List.mem_append_right l1 hd
      rcases List.mem_map.mp this with ⟨y, _, rfl⟩
      simp at hdt
    | cons x xs =>
      cases B with
      | nil =>
        exfalso
        obtain ⟨d, hd, hdt⟩ := hd2
        rw [lcsDiff_nil_right] at heq
        have : d ∈ List.map (fun z => { tag := Tag.delete, value := z }) (x :: xs) := by
          rw [heq]; exact List.mem_append_right l1 hd
        rcases List.mem_map.mp this with ⟨z, _, rfl⟩
        simp at hdt
      | cons y ys =>
        rw [lcsDiff_cons_cons] at heq
        by_cases hxy : x = y
        · rw [if_pos hxy] at heq
          cases l1 with
          | nil => simp at hc
          | cons e l1' =>
            rw [List.cons_append] at heq
            injection heq with he hrest
            rcases List.mem_cons.mp hc with rfl | hc'
            · rw [← he]
              obtain ⟨d, hd, hdt⟩ := hd2
              have hdm : d ∈ lcsDiff f xs ys := by
                rw [hrest]; exact List.mem_append_right l1' hd
              have hxsne : xs ≠ [] := by
                intro hxs
                have := ((lcsDiff_value_mem f xs ys d hdm).1 hdt).1
                rw [hxs] at this; simp at this
              exact okLines_head hA hxsne
            · exact ih xs ys (okLines_tail hA) (okLines_tail hB)
                l1' l2 hrest hd2 c hc'
        · rw [if_neg hxy] at heq
          by_cases hlen : lcsLen f (x :: xs) ys ≤ lcsLen f xs (y :: ys)
          · rw [if_pos hlen] at heq
            cases l1 with
            | nil => simp at hc
            | cons e l1' =>
              rw [List.cons_append] at heq
              injection heq with he hrest
              rcases List.mem_cons.mp hc with rfl | hc'
              · rw [← he]
                obtain ⟨d, hd, hdt⟩ := hd2
                have hdm : d ∈ lcsDiff f xs (y :: ys) := by
                  rw [hrest]; exact List.mem_append_right l1' hd
                have hxsne : xs ≠ [] := by
                  intro hxs
                  have := ((lcsDiff_value_mem f xs (y :: ys) d hdm).1 hdt).1
                  rw [hxs] at this; simp at this
                exact okLines_head hA hxsne
              · exact ih xs (y :: ys) (okLines_tail hA) hB
                  l1' l2 hrest hd2 c hc'
          · rw [if_neg hlen] at heq
            cases l1 with
            | nil => simp at hc
            | cons e l1' =>
              rw [List.cons_append] at heq
              injection heq with he hrest
              rcases List.mem_cons.mp hc with rfl | hc'
              · rw [← he]
                obtain ⟨d, hd, hdt⟩ := hd2
                have hdm : d ∈ lcsDiff f (x :: xs) ys := by
                  rw [hrest]; exact List.mem_append_right l1' hd
                have hysne : ys ≠ [] := by
                  intro hys
                  have := ((lcsDiff_value_mem f (x :: xs) ys d hdm).1 hdt).2
                  rw [hys] at this; simp at this
                exact okLines_head hB hysne
              · exact ih (x :: xs) ys hA (okLines_tail hB)
                  l1' l2 hrest hd2 c hc'

lemma changedIdxFrom_map_equal (A : List (List Char)) :
    ∀ k, changedIdxFrom k (A.map (fun l => { tag := Tag.equal, value := l })) = [] := by
  induction A with
  | nil => intro k; rfl
  | cons x xs ih =>
    intro k
    simpa [changedIdxFrom, isChanged] using ih (k + 1)

/-- C2: replaying the `Equal` and `Delete` changes of the line alignment of
`old` and `new`, in order, reconstructs `old` exactly (terminators
included); replaying the `Equal` and `Insert` changes reconstructs `new`. -/
theorem diff_reconstruction (old new : List Char) :
    oldTextOf (align old new) = old ∧ newTextOf (align old new) = new := by
  constructor
  · rw [oldTextOf, align,
      lcsDiff_oldLines ((splitLines old).length + (splitLines new).length)
        (splitLines old) (splitLines new) le_rfl,
      join_splitLines]
  · rw [newTextOf, align,
      lcsDiff_newLines ((splitLines old).length + (splitLines new).length)
        (splitLines old) (splitLines new) le_rfl,
      join_splitLines]

/-- C3: diffing a text with itself renders the empty string, whatever the
filename argument. -/
theorem diff_self_empty (x f : List Char) : diff_files x x f = [] := by
  have hself : align x x
      = (splitLines x).map (fun l => { tag := Tag.equal, value := l }) := by
    rw [align]
    exact lcsDiff_self _ (splitLines x) le_rfl
  rw [diff_files, groupedOps, groupIntervals, changedIdx, hself,
    changedIdxFrom_map_equal]
  rfl

/-- C7: aligning the empty text with `x` yields only `Insert` changes;
aligning `x` with the empty text yields only `Delete` changes; aligning `x`
with itself yields only `Equal` changes and zero changed runs. -/
theorem align_edge_cases (x : List Char) :
    ((align [] x).all (fun c => c.tag == Tag.insert)) = true
    ∧ ((align x []).all (fun c => c.tag == Tag.delete)) = true
    ∧ ((align x x).all (fun c => c.tag == Tag.equal)) = true
    ∧ changedIdx (align x x) = [] := by
  have h1 : align [] x
      = (splitLines x).map (fun y => { tag := Tag.insert, value := y }) := by
    rw [align, splitLines_nil, lcsDiff_nil_left]
  have h2 : align x []
      = (splitLines x).map (fun z => { tag := Tag.delete, value := z }) := by
    rw [align, splitLines_nil, lcsDiff_nil_right]
  have h3 : align x x
      = (splitLines x).map (fun l => { tag := Tag.equal, value := l }) := by
    rw [align]
    exact lcsDiff_self _ (splitLines x) le_rfl
  refine ⟨?_, ?_, ?_, ?_⟩
  · rw [h1]
    simp only [List.all_eq_true]
    intro c hc
    rcases List.mem_map.mp hc with ⟨y, _, rfl⟩
    rfl
  · rw [h2]
    simp only [List.all_eq_true]
    intro c hc
    rcases List.mem_map.mp hc with ⟨z, _, rfl⟩
    rfl
  · rw [h3]
    simp only [List.all_eq_true]
    intro c hc
    rcases List.mem_map.mp hc with ⟨l, _, rfl⟩
    rfl
  · rw [changedIdx, h3, changedIdxFrom_map_equal]

/-- C8: `diff_files` is deterministic — two calls with identical `old`,
`new` and filename arguments yield identical output. -/
theorem diff_files_deterministic (o1 o2 n1 n2 f1 f2 : List Char)
    (ho : o1 = o2) (hn : n1 = n2) (hf : f1 = f2) :
    diff_files o1 n1 f1 = diff_files o2 n2 f2 := by
  rw [ho, hn, hf]

/-- C8 witness: determinism at a concrete pair of texts. -/
theorem diff_files_deterministic_witness :
    "a\n".toList = "a\n".toList
    ∧ diff_files "a\n".toList "b\n".toList "f".toList
        = diff_files "a\n".toList "b\n".toList "f".toList :=
  ⟨rfl, diff_files_deterministic _ _ _ _ _ _ rfl rfl rfl⟩

/-- C10: the output of `diff_files` does not depend on the filename
argument, which the source binds as `_filename` and never reads. -/
theorem diff_files_filename_irrelevant (old new f1 f2 : List Char) :
    diff_files old new f1 = diff_files old new f2 := rfl

/-- C6: every covered change is rendered as its one-character sign (`-` for
`Delete`, `+` for `Insert`, a space for `Equal`) immediately followed by the
line's exact content with its terminator; on `old = "a\nb\nc\n"`,
`new = "a\nx\nc\n"` the diff renders the single group
`" a\n-b\n+x\n c\n"` with no separator. -/
theorem diff_render_signs_example :
    (∀ c : Change, renderChange c = signChar c.tag :: c.value)
    ∧ signChar Tag.delete = '-'
    ∧ signChar Tag.insert = '+'
    ∧ signChar Tag.equal = ' '
    ∧ (groupedOps 3 (align "a\nb\nc\n".toList "a\nx\nc\n".toList)).length = 1
    ∧ diff_files "a\nb\nc\n".toList "a\nx\nc\n".toList "f".toList
        = " a\n-b\n+x\n c\n".toList := by
  exact ⟨fun c => rfl, rfl, rfl, rfl, by decide, by decide⟩

/-- Ordering of context windows by start position. -/
def startLe (a b : Nat × Nat) : Prop := a.1 ≤ b.1

/-- Separation of display groups: the first ends strictly before the second
starts. -/
def sepIv (a b : Nat × Nat) : Prop := a.2 < b.1

/-- A well-formed index range into a change sequence of length `n`. -/
def wfIv (n : Nat) (iv : Nat × Nat) : Prop := iv.1 < iv.2 ∧ iv.2 ≤ n

lemma mem_changedIdxFrom (cs : List Change) :
    ∀ k i, i ∈ changedIdxFrom k cs
      ↔ k ≤ i ∧ ∃ c, cs[i - k]? = some c ∧ isChanged c = true := by
  induction cs with
  | nil => intro k i; simp [changedIdxFrom]
  | cons c rest ih =>
    intro k i
    by_cases hch : isChanged c
    · rw [changedIdxFrom, if_pos hch]
      constructor
      · intro h
        rcases List.mem_cons.mp h with rfl | h
        · exact ⟨le_rfl, c, by simp [List.getElem?_cons_zero], hch⟩
        · obtain ⟨hk, c', hc', hch'⟩ := (ih (k + 1) i).mp h
          refine ⟨by omega, c', ?_, hch'⟩
          have : i - k = (i - (k + 1)) + 1 := by omega
          rw [this, List.getElem?_cons_succ]
          exact hc'
      · rintro ⟨hk, c', hc', hch'⟩
        by_cases hik : i = k
        · exact hik ▸ List.mem_cons_self _ _
        · apply List.mem_cons_of_mem
          apply (ih (k + 1) i).mpr
          refine ⟨by omega, c', ?_, hch'⟩
          have : i - k = (i - (k + 1)) + 1 := by omega
          rw [this, List.getElem?_cons_succ] at hc'
          exact hc'
    · rw [changedIdxFrom, if_neg hch]
      constructor
      · intro h
        obtain ⟨hk, c', hc', hch'⟩ := (ih (k + 1) i).mp h
        refine ⟨by omega, c', ?_, hch'⟩
        have : i - k = (i - (k + 1)) + 1 := by omega
        rw [this, List.getElem?_cons_succ]
        exact hc'
      · rintro ⟨hk, c', hc', hch'⟩
        by_cases hik : i = k
        · subst hik
          rw [Nat.sub_self, List.getElem?_cons_zero] at hc'
          injection hc' with hc'
          exact absurd (hc' ▸ hch') (by simpa using hch)
        · apply (ih (k + 1) i).mpr
          refine ⟨by omega, c', ?_, hch'⟩
          have : i - k = (i - (k + 1)) + 1 := by omega
          rw [this, List.getElem?_cons_succ] at hc'
          exact hc'

lemma changedIdxFrom_le (cs : List Change) :
    ∀ k i, i ∈ changedIdxFrom k cs → k ≤ i := by
  intro k i h
  exact ((mem_changedIdxFrom cs k i).mp h).1

lemma changedIdxFrom_chain (cs : List Change) :
    ∀ k, List.Chain' (· < ·) (changedIdxFrom k cs) := by
  induction cs with
  | nil => intro k; simp [changedIdxFrom]
  | cons c rest ih =>
    intro k
    by_cases hch : isChanged c
    · rw [changedIdxFrom, if_pos hch]
      rw [List.chain'_cons']
      refine ⟨?_, ih (k + 1)⟩
      intro y hy
      have := changedIdxFrom_le rest (k + 1) y (List.mem_of_mem_head? hy)
      omega
    · rw [changedIdxFrom, if_neg hch]
      exact ih (k + 1)

lemma mem_changedIdx_lt (cs : List Change) (i : Nat)
    (h : i ∈ changedIdx cs) : i < cs.length := by
  obtain ⟨_, c, hc, _⟩ := (mem_changedIdxFrom cs 0 i).mp h
  rw [Nat.sub_zero] at hc
  exact (List.getElem?_eq_some.mp hc).1

lemma mergeAux_first :
    ∀ (rest : List (Nat × Nat)) (cur : Nat × Nat),
      ∃ e tl, mergeAux cur rest = (cur.1, e) :: tl ∧ cur.2 ≤ e := by
  intro rest
  induction rest with
  | nil => intro cur; exact ⟨cur.2, [], rfl, le_rfl⟩
  | cons iv rest' ih =>
    intro cur
    rw [mergeAux]
    by_cases hm : iv.1 ≤ cur.2
    · rw [if_pos hm]
      obtain ⟨e, tl, heq, hle⟩ := ih (cur.1, max cur.2 iv.2)
      exact ⟨e, tl, heq, le_trans (le_max_left _ _) hle⟩
    · rw [if_neg hm]
      exact ⟨cur.2, mergeAux iv rest', rfl, le_rfl⟩

lemma mergeAux_start :
    ∀ (rest : List (Nat × Nat)) (cur : Nat × Nat),
      List.Chain' startLe (cur :: rest) →
      ∀ ov ∈ mergeAux cur rest, cur.1 ≤ ov.1 := by
  intro rest
  induction rest with
  | nil =>
    intro cur _ ov hov
    rw [mergeAux] at hov
    simp only [List.mem_singleton] at hov
    exact hov ▸ le_rfl
  | cons iv rest' ih =>
    intro cur hch ov hov
    have hci : startLe cur iv := (List.chain'_cons.mp hch).1
    have hch' : List.Chain' startLe (iv :: rest') := (List.chain'_cons.mp hch).2
    rw [mergeAux] at hov
    by_cases hm : iv.1 ≤ cur.2
    · rw [if_pos hm] at hov
      have hch'' : List.Chain' startLe ((cur.1, max cur.2 iv.2) :: rest') := by
        rw [List.chain'_cons']
        refine ⟨?_, (List.chain'_cons'.mp hch').2⟩
        intro y hy
        have := (List.chain'_cons'.mp hch').1 y hy
        exact le_trans hci this
      exact ih (cur.1, max cur.2 iv.2) hch'' ov hov
    · rw [if_neg hm] at hov
      rcases List.mem_cons.mp hov with rfl | hov'
      · exact le_rfl
      · exact le_trans hci (ih iv hch' ov hov')

lemma mergeAux_wf (n : Nat) :
    ∀ (rest : List (Nat × Nat)) (cur : Nat × Nat),
      wfIv n cur → (∀ iv ∈ rest, wfIv n iv) →
      ∀ ov ∈ mergeAux cur rest, wfIv n ov := by
  intro rest
  induction rest with
  | nil =>
    intro cur hcur _ ov hov
    rw [mergeAux] at hov
    simp only [List.mem_singleton] at hov
    exact hov ▸ hcur
  | cons iv rest' ih =>
    intro cur hcur hrest ov hov
    have hiv : wfIv n iv := hrest iv (List.mem_cons_self _ _)
    have hrest' : ∀ jv ∈ rest', wfIv n jv :=
      fun jv hjv => hrest jv (List.mem_cons_of_mem iv hjv)
    rw [mergeAux] at hov
    by_cases hm : iv.1 ≤ cur.2
    · rw [if_pos hm] at hov
      have hcur' : wfIv n (cur.1, max cur.2 iv.2) := by
        unfold wfIv at hcur hiv ⊢
        constructor
        · exact lt_of_lt_of_le hcur.1 (le_max_left _ _)
        · exact max_le hcur.2 hiv.2
      exact ih (cur.1, max cur.2 iv.2) hcur' hrest' ov hov
    · rw [if_neg hm] at hov
      rcases List.mem_cons.mp hov with rfl | hov'
      · exact hcur
      · exact ih iv hiv hrest' ov hov'

lemma mergeAux_pairwise :
    ∀ (rest : List (Nat × Nat)) (cur : Nat × Nat),
      List.Chain' startLe (cur :: rest) →
      List.Pairwise sepIv (mergeAux cur rest) := by
  intro rest
  induction rest with
  | nil => intro cur _; rw [mergeAux]; simp
  | cons iv rest' ih =>
    intro cur hch
    have hci : startLe cur iv := (List.chain'_cons.mp hch).1
    have hch' : List.Chain' startLe (iv :: rest') := (List.chain'_cons.mp hch).2
    rw [mergeAux]
    by_cases hm : iv.1 ≤ cur.2
    · rw [if_pos hm]
      have hch'' : List.Chain' startLe ((cur.1, max cur.2 iv.2) :: rest') := by
        rw [List.chain'_cons']
        refine ⟨?_, (List.chain'_cons'.mp hch').2⟩
        intro y hy
        have := (List.chain'_cons'.mp hch').1 y hy
        exact le_trans hci this
      exact ih (cur.1, max cur.2 iv.2) hch''
    · rw [if_neg hm]
      rw [List.pairwise_cons]
      refine ⟨?_, ih iv hch'⟩
      intro ov hov
      have hs : iv.1 ≤ ov.1 := mergeAux_start rest' iv hch' ov hov
      unfold sepIv
      omega

lemma mergeAux_cover :
    ∀ (rest : List (Nat × Nat)) (cur : Nat × Nat),
      List.Chain' startLe (cur :: rest) →
      ∀ iv ∈ cur :: rest,
        ∃ ov ∈ mergeAux cur rest, ov.1 ≤ iv.1 ∧ iv.2 ≤ ov.2 := by
  intro rest
  induction rest with
  | nil =>
    intro cur _ iv hiv
    simp only [List.mem_singleton] at hiv
    subst hiv
    exact ⟨iv, by rw [mergeAux]; simp, le_rfl, le_rfl⟩
  | cons iv0 rest' ih =>
    intro cur hch iv hiv
    have hci : startLe cur iv0 := (List.chain'_cons.mp hch).1
    have hch' : List.Chain' startLe (iv0 :: rest') := (List.chain'_cons.mp hch).2
    rw [mergeAux]
    by_cases hm : iv0.1 ≤ cur.2
    · rw [if_pos hm]
      have hch'' : List.Chain' startLe ((cur.1, max cur.2 iv0.2) :: rest') := by
        rw [List.chain'_cons']
        refine ⟨?_, (List.chain'_cons'.mp hch').2⟩
        intro y hy
        have := (List.chain'_cons'.mp hch').1 y hy
        exact le_trans hci this
      rcases List.mem_cons.mp hiv with heq | hiv'
      · subst heq
        obtain ⟨ov, hov, h1, h2⟩ := ih (iv.1, max iv.2 iv0.2) hch''
          (iv.1, max iv.2 iv0.2) (List.mem_cons_self _ _)
        exact ⟨ov, hov, h1, le_trans (le_max_left _ _) h2⟩
      · rcases List.mem_cons.mp hiv' with heq2 | hiv''
        · subst heq2
          obtain ⟨ov, hov, h1, h2⟩ := ih (cur.1, max cur.2 iv.2) hch''
            (cur.1, max cur.2 iv.2) (List.mem_cons_self _ _)
          exact ⟨ov, hov, le_trans h1 hci, le_trans (le_max_right _ _) h2⟩
        · obtain ⟨ov, hov, h1, h2⟩ := ih (cur.1, max cur.2 iv0.2) hch'' iv
            (List.mem_cons_of_mem _ hiv'')
          exact ⟨ov, hov, h1, h2⟩
    · rw [if_neg hm]
      rcases List.mem_cons.mp hiv with heq | hiv'
      · subst heq
        exact ⟨iv, List.mem_cons_self _ _, le_rfl, le_rfl⟩
      · obtain ⟨ov, hov, h1, h2⟩ := ih iv0 hch' iv hiv'
        exact ⟨ov, List.mem_cons_of_mem _ hov, h1, h2⟩

lemma groupIntervals_input_chain (cs : List Change) :
    List.Chain' startLe ((changedIdx cs).map (ctxInterval cs.length 3)) := by
  rw [List.chain'_map]
  apply List.Chain'.imp ?_ (changedIdxFrom_chain cs 0)
  intro a b hab
  unfold startLe ctxInterval
  simp only
  omega

lemma groupIntervals_input_wf (cs : List Change) :
    ∀ iv ∈ (changedIdx cs).map (ctxInterval cs.length 3),
      wfIv cs.length iv := by
  intro iv hiv
  rcases List.mem_map.mp hiv with ⟨i, hi, rfl⟩
  have := mem_changedIdx_lt cs i hi
  unfold wfIv ctxInterval
  simp only
  omega

lemma groupIntervals_wf (cs : List Change) :
    ∀ ov ∈ groupIntervals 3 cs, wfIv cs.length ov := by
  intro ov hov
  rw [groupIntervals] at hov
  rcases hin : (changedIdx cs).map (ctxInterval cs.length 3) with _ | ⟨iv, rest⟩
  · rw [hin] at hov; simp [mergeIntervals] at hov
  · rw [hin, mergeIntervals] at hov
    have hwf := groupIntervals_input_wf cs
    rw [hin] at hwf
    exact mergeAux_wf cs.length rest iv (hwf iv (List.mem_cons_self _ _))
      (fun jv hjv => hwf jv (List.mem_cons_of_mem iv hjv)) ov hov

lemma groupIntervals_pairwise (cs : List Change) :
    List.Pairwise sepIv (groupIntervals 3 cs) := by
  rw [groupIntervals]
  rcases hin : (changedIdx cs).map (ctxInterval cs.length 3) with _ | ⟨iv, rest⟩
  · simp [mergeIntervals]
  · rw [mergeIntervals]
    have hch := groupIntervals_input_chain cs
    rw [hin] at hch
    exact mergeAux_pairwise rest iv hch

lemma groupIntervals_cover (cs : List Change) (i : Nat)
    (hi : i ∈ changedIdx cs) :
    ∃ ov ∈ groupIntervals 3 cs,
      ov.1 ≤ i - 3 ∧ min (i + 3 + 1) cs.length ≤ ov.2 := by
  have hmem : ctxInterval cs.length 3 i
      ∈ (changedIdx cs).map (ctxInterval cs.length 3) :=
    List.mem_map_of_mem _ hi
  rw [groupIntervals]
  rcases hin : (changedIdx cs).map (ctxInterval cs.length 3) with _ | ⟨iv, rest⟩
  · rw [hin] at hmem; simp at hmem
  · rw [mergeIntervals]
    have hch := groupIntervals_input_chain cs
    rw [hin] at hch
    rw [hin] at hmem
    obtain ⟨ov, hov, h1, h2⟩ := mergeAux_cover rest iv hch _ hmem
    exact ⟨ov, hov, h1, h2⟩

lemma gap_not_changed (cs : List Change) (s1 e1 s2 e2 : Nat)
    (v : List (Nat × Nat))
    (hgi : groupIntervals 3 cs = (s1, e1) :: (s2, e2) :: v)
    (k : Nat) (hk1 : e1 ≤ k) (hk2 : k < s2) :
    k ∉ changedIdx cs := by
  intro hk
  have hkn : k < cs.length := mem_changedIdx_lt cs k hk
  obtain ⟨ov, hov, h1, h2⟩ := groupIntervals_cover cs k hk
  have hk_in : ov.1 ≤ k ∧ k < ov.2 := by
    constructor
    · omega
    · have : k + 1 ≤ min (k + 3 + 1) cs.length := by omega
      omega
  have hpw := groupIntervals_pairwise cs
  rw [hgi] at hpw hov
  have hwf := groupIntervals_wf cs
  rw [hgi] at hwf
  have hwf2 : wfIv cs.length (s2, e2) :=
    hwf _ (List.mem_cons_of_mem _ (List.mem_cons_self _ _))
  rcases List.mem_cons.mp hov with heq | hov'
  · rw [heq] at hk_in
    simp only at hk_in
    omega
  · rcases List.mem_cons.mp hov' with heq | hov''
    · rw [heq] at hk_in
      simp only at hk_in
      omega
    · have hsep : sepIv (s2, e2) ov := by
        have := (List.pairwise_cons.mp (List.pairwise_cons.mp hpw).2).1
        exact this ov hov''
      unfold sepIv at hsep
      unfold wfIv at hwf2
      simp only at hsep hwf2
      omega

lemma change_at_end_equal (cs : List Change) (s1 e1 s2 e2 : Nat)
    (v : List (Nat × Nat))
    (hgi : groupIntervals 3 cs = (s1, e1) :: (s2, e2) :: v) :
    ∃ c, cs[e1]? = some c ∧ c.tag = Tag.equal := by
  have hpw := groupIntervals_pairwise cs
  rw [hgi] at hpw
  have hsep : sepIv (s1, e1) (s2, e2) :=
    (List.pairwise_cons.mp hpw).1 _ (List.mem_cons_self _ _)
  have hwf := groupIntervals_wf cs
  rw [hgi] at hwf
  have hwf2 : wfIv cs.length (s2, e2) :=
    hwf _ (List.mem_cons_of_mem _ (List.mem_cons_self _ _))
  unfold sepIv at hsep
  unfold wfIv at hwf2
  simp only at hsep hwf2
  have he1n : e1 < cs.length := by omega
  obtain ⟨c, hc⟩ : ∃ c, cs[e1]? = some c := by
    rcases hx : cs[e1]? with _ | c
    · rw [List.getElem?_eq_none_iff] at hx; omega
    · exact ⟨c, rfl⟩
  refine ⟨c, hc, ?_⟩
  have hnot := gap_not_changed cs s1 e1 s2 e2 v hgi e1 le_rfl (by omega)
  by_contra htag
  apply hnot
  apply (mem_changedIdxFrom cs 0 e1).mpr
  refine ⟨Nat.zero_le _, c, by simpa using hc, ?_⟩
  unfold isChanged
  cases hct : c.tag with
  | equal => exact absurd hct htag
  | delete => rfl
  | insert => rfl

lemma slice_getLast (cs : List Change) (s e : Nat) (hse : s < e)
    (hen : e ≤ cs.length) :
    ∃ cl, ((cs.drop s).take (e - s)).getLast? = some cl
      ∧ cs[e - 1]? = some cl := by
  have hlen : ((cs.drop s).take (e - s)).length = e - s := by
    rw [List.length_take, List.length_drop]
    omega
  have hget : ((cs.drop s).take (e - s))[e - s - 1]? = cs[e - 1]? := by
    rw [List.getElem?_take_of_lt (by omega), List.getElem?_drop]
    congr 1
    omega
  obtain ⟨cl, hcl⟩ : ∃ cl, cs[e - 1]? = some cl := by
    rcases hx : cs[e - 1]? with _ | cl
    · rw [List.getElem?_eq_none_iff] at hx; omega
    · exact ⟨cl, rfl⟩
  refine ⟨cl, ?_, hcl⟩
  rw [List.getLast?_eq_getElem?, hlen, hget]
  exact hcl

lemma signChar_ne_newline (t : Tag) : signChar t ≠ '\n' := by
  cases t <;> decide

lemma signChar_cases (t : Tag) :
    signChar t = ' ' ∨ signChar t = '-' ∨ signChar t = '+' := by
  cases t with
  | equal => exact Or.inl rfl
  | delete => exact Or.inr (Or.inl rfl)
  | insert => exact Or.inr (Or.inr rfl)

@[simp] lemma renderGroup_nil : renderGroup [] = [] := rfl

lemma renderGroup_cons (c : Change) (g : List Change) :
    renderGroup (c :: g) = renderChange c ++ renderGroup g := by
  simp [renderGroup]

lemma renderGroup_append (g1 g2 : List Change) :
    renderGroup (g1 ++ g2) = renderGroup g1 ++ renderGroup g2 := by
  simp [renderGroup]

lemma renderGroup_endsNewline (g : List Change) (cl : Change)
    (hg : g.getLast? = some cl) (hcl : endsNewline cl.value) :
    endsNewline (renderGroup g) := by
  have hne : g ≠ [] := by
    intro h; rw [h] at hg; simp at hg
  have hlast : g.getLast hne = cl := by
    have := List.getLast?_eq_getLast g hne
    rw [this] at hg
    injection hg
  have hdecomp : g.dropLast ++ [cl] = g := by
    rw [← hlast]; exact List.dropLast_append_getLast hne
  have hvne : cl.value ≠ [] := by
    intro h; unfold endsNewline at hcl; rw [h] at hcl; simp at hcl
  unfold endsNewline
  rw [← hdecomp, renderGroup_append]
  rw [List.getLast?_append]
  have : (renderGroup [cl]).getLast? = some '\n' := by
    have hrc : renderGroup [cl] = signChar cl.tag :: cl.value := by
      simp [renderGroup, renderChange]
    rw [hrc]
    rcases hv : cl.value with _ | ⟨d, ds⟩
    · exact absurd hv hvne
    · rw [List.getLast?_cons_cons]
      unfold endsNewline at hcl
      rw [hv] at hcl
      exact hcl
  rw [this]
  rfl

lemma no_newline_of_shape {l : List Char} (hne : l ≠ [])
    (hin : '\n' ∉ l.dropLast) (hend : ¬ endsNewline l) : '\n' ∉ l := by
  intro hmem
  have hdecomp : l.dropLast ++ [l.getLast hne] = l :=
    List.dropLast_append_getLast hne
  rw [← hdecomp] at hmem
  rcases List.mem_append.mp hmem with h | h
  · exact hin h
  · simp only [List.mem_singleton] at h
    apply hend
    unfold endsNewline
    rw [List.getLast?_eq_getLast l hne, ← h]

lemma renderGroup_line_heads (g : List Change)
    (hvals : ∀ c ∈ g, c.value ≠ [] ∧ '\n' ∉ c.value.dropLast) :
    ∀ l ∈ splitLines (renderGroup g),
      l.head? = some ' ' ∨ l.head? = some '-' ∨ l.head? = some '+' := by
  induction g with
  | nil => intro l hl; simp at hl
  | cons c g' ih =>
    intro l hl
    rw [renderGroup_cons] at hl
    obtain ⟨hvne, hvin⟩ := hvals c (List.mem_cons_self _ _)
    have ih' := ih (fun d hd => hvals d (List.mem_cons_of_mem c hd))
    by_cases hend : endsNewline c.value
    · have hvdec : c.value.dropLast ++ [c.value.getLast hvne] = c.value :=
        List.dropLast_append_getLast hvne
      have hlastnl : c.value.getLast hvne = '\n' := by
        unfold endsNewline at hend
        rw [List.getLast?_eq_getLast _ hvne] at hend
        injection hend
      have hrc : renderChange c
          = (signChar c.tag :: c.value.dropLast) ++ ['\n'] := by
        unfold renderChange
        rw [List.cons_append, ← hlastnl, hvdec]
      have hwnn : '\n' ∉ signChar c.tag :: c.value.dropLast := by
        intro hmem
        rcases List.mem_cons.mp hmem with h | h
        · exact signChar_ne_newline c.tag h.symm
        · exact hvin h
      rw [hrc, splitLines_single_line _ hwnn] at hl
      rcases List.mem_cons.mp hl with rfl | hl'
      · simp only [List.cons_append, List.head?_cons]
        rcases signChar_cases c.tag with h | h | h <;> rw [h] <;> simp
      · exact ih' l hl'
    · have hnn : '\n' ∉ renderChange c := by
        unfold renderChange
        intro hmem
        rcases List.mem_cons.mp hmem with h | h
        · exact signChar_ne_newline c.tag h.symm
        · exact no_newline_of_shape hvne hvin hend h
      have hrne : renderChange c ≠ [] := by
        unfold renderChange; simp
      rw [splitLines_append_of_no_newline _ hrne hnn] at hl
      rcases List.mem_cons.mp hl with rfl | hl'
      · unfold renderChange
        simp only [List.cons_append, List.head?_cons]
        rcases signChar_cases c.tag with h | h | h <;> rw [h] <;> simp
      · exact ih' l (List.tail_subset _ hl')

lemma align_value_shape (old new : List Char) (c : Change)
    (hc : c ∈ align old new) :
    c.value ≠ [] ∧ '\n' ∉ c.value.dropLast := by
  have hmem := lcsDiff_value_mem _ (splitLines old) (splitLines new) c hc
  have hvin : c.value ∈ splitLines old ∨ c.value ∈ splitLines new := by
    cases hct : c.tag with
    | equal => exact Or.inl (hmem.1 hct).1
    | delete => exact Or.inl (hmem.2.1 hct)
    | insert => exact Or.inr (hmem.2.2 hct)
  rcases hvin with h | h
  · exact ⟨splitLines_mem_ne_nil h, splitLines_no_inner_newline h⟩
  · exact ⟨splitLines_mem_ne_nil h, splitLines_no_inner_newline h⟩

/-- C5: the rendered diff contains a `...` line exactly when the grouping of
the change sequence (context size 3) produces at least two Groups; the
separator `...` with its terminator is emitted before every Group except the
first, and never before the first Group or when there are no Groups. -/
theorem diff_separator_iff (old new f : List Char) :
    ((['.', '.', '.'] ∈ splitLines (diff_files old new f)
        ∨ sepChars ∈ splitLines (diff_files old new f))
      ↔ 2 ≤ (groupedOps 3 (align old new)).length)
    ∧ diff_files old new f
        = joinGroups ((groupedOps 3 (align old new)).map renderGroup)
    ∧ joinGroups [] = ([] : List Char)
    ∧ (∀ R Rs, joinGroups (R :: Rs)
        = R ++ (Rs.map (fun h => sepChars ++ h)).join) := by
  refine ⟨?_, rfl, rfl, fun R Rs => rfl⟩
  have hlen : (groupedOps 3 (align old new)).length
      = (groupIntervals 3 (align old new)).length := by
    simp [groupedOps]
  constructor
  · intro hmem
    by_contra hlt
    rw [not_le, hlen] at hlt
    rcases hgi : groupIntervals 3 (align old new)
      with _ | ⟨iv, _ | ⟨iv2, v⟩⟩
    · have hempty : diff_files old new f = [] := by
        simp [diff_files, groupedOps, hgi, joinGroups]
      rw [hempty] at hmem
      simp at hmem
    · have hout : diff_files old new f
          = renderGroup (((align old new).drop iv.1).take (iv.2 - iv.1)) := by
        simp [diff_files, groupedOps, hgi, joinGroups]
      have hheads := renderGroup_line_heads
        (((align old new).drop iv.1).take (iv.2 - iv.1))
        (fun c hc => align_value_shape old new c
          (List.drop_subset _ _ (List.take_subset _ _ hc)))
      rw [hout] at hmem
      rcases hmem with hmem | hmem
      · rcases hheads _ hmem with h | h | h <;> exact absurd h (by decide)
      · rcases hheads _ hmem with h | h | h <;> exact absurd h (by decide)
    · rw [hgi] at hlt
      simp at hlt
      omega
  · intro h2
    rw [hlen] at h2
    rcases hgi : groupIntervals 3 (align old new)
      with _ | ⟨⟨s1, e1⟩, _ | ⟨⟨s2, e2⟩, v⟩⟩
    · rw [hgi] at h2; simp at h2
    · rw [hgi] at h2; simp at h2
    · right
      have hwf1 : wfIv (align old new).length (s1, e1) := by
        apply groupIntervals_wf
        rw [hgi]; exact List.mem_cons_self _ _
      have hs1e1 : s1 < e1 := hwf1.1
      have he1n : e1 ≤ (align old new).length := hwf1.2
      obtain ⟨cl, hcl_last, hcl_get⟩ :=
        slice_getLast (align old new) s1 e1 hs1e1 he1n
      obtain ⟨cN, hcN_get, hcN_tag⟩ :=
        change_at_end_equal (align old new) s1 e1 s2 e2 v hgi
      have hcl_memtake : cl ∈ (align old new).take e1 := by
        have h1 : ((align old new).take e1)[e1 - 1]? = some cl := by
          rw [List.getElem?_take_of_lt (by omega)]
          exact hcl_get
        obtain ⟨hlt', hget⟩ := List.getElem?_eq_some.mp h1
        exact hget ▸ List.getElem_mem hlt'
      have hcN_memdrop : cN ∈ (align old new).drop e1 := by
        have h1 : ((align old new).drop e1)[0]? = some cN := by
          rw [List.getElem?_drop]
          simpa using hcN_get
        obtain ⟨hlt', hget⟩ := List.getElem?_eq_some.mp h1
        exact hget ▸ List.getElem_mem hlt'
      have hcl_end : endsNewline cl.value := by
        refine lcsDiff_before_equal
          ((splitLines old).length + (splitLines new).length)
          (splitLines old) (splitLines new)
          (splitLines_okLines old) (splitLines_okLines new)
          ((align old new).take e1) ((align old new).drop e1)
          ?_ ⟨cN, hcN_memdrop, hcN_tag⟩ cl hcl_memtake
        rw [List.take_append_drop]
        rfl
      have hR0 : endsNewline
          (renderGroup (((align old new).drop s1).take (e1 - s1))) :=
        renderGroup_endsNewline _ cl hcl_last hcl_end
      have hout : diff_files old new f
          = renderGroup (((align old new).drop s1).take (e1 - s1))
            ++ (sepChars
              ++ (renderGroup (((align old new).drop s2).take (e2 - s2))
                ++ (((v.map (fun iv =>
                      ((align old new).drop iv.1).take (iv.2 - iv.1))).map
                        renderGroup).map
                    (fun h => sepChars ++ h)).join)) := by
        simp [diff_files, groupedOps, hgi, joinGroups, List.map_cons,
          List.join_cons, List.append_assoc]
      rw [hout,
        splitLines_append_of_endsNewline _ (Or.inr hR0),
        splitLines_append_of_endsNewline _
          (Or.inr (show endsNewline sepChars by unfold endsNewline; rfl))]
      have hsSep : splitLines sepChars = [sepChars] := by decide
      rw [hsSep]
      simp
